import Mathlib

/-!
Verification of the quantum-circuit execution model underlying the
CERN-IT-INNOVATION/olqti-summer-school-2024 teaching notebook
(`Quantum computing hands-on.ipynb`).

The notebook delegates all simulation to the PennyLane library; the
repository itself contains the concrete circuits (`circ_fn`,
`obs_circ_fn`), the observables (`cs`, `os`, `O_ham`, `O_mat`, `O_her`),
the device configuration (`dev`, 2 wires, `shots=None`) and the GHZ
exercise.  The simulator, observable constructors and execution node are
therefore modelled from the specification (state-vector simulator on the
all-zero initial state, gate application by tensor contraction, Pauli and
Hermitian expectation values, wire-range checking), while every circuit
and observable literal below is transcribed from the notebook source.

Convention (PennyLane's): a basis state of an `n`-wire register is a
function `v : Fin n → Bool`, `v w` being the value of wire `w`; wire 0 is
the leftmost / most significant position, so the ket `|10⟩` is the
function sending wire 0 to `true` and wire 1 to `false`.  Amplitudes are
exact complex numbers (the notebook's floats are read as the real numbers
they denote).
-/

namespace QCHandsOn

open Complex Finset

/-- A pure state of an `n`-wire register: a complex amplitude for each
computational basis state, i.e. the "complex vector of size 2^(wire
count)" of the spec, indexed by bit-vectors. -/
abbrev State (n : ℕ) := (Fin n → Bool) → ℂ

/-- Modelled from the spec: the simulator "starts in the all-zero
computational basis state". -/
noncomputable def initState (n : ℕ) : State n :=
  fun v => if (∀ i, v i = false) then 1 else 0

/-- Squared modulus of each amplitude: the full probability vector
(output mode (a) of the spec's Simulator, PennyLane's `qml.probs()`). -/
noncomputable def probs {n : ℕ} (ψ : State n) : (Fin n → Bool) → ℝ :=
  fun v => Complex.normSq (ψ v)

/-- Sum of the full probability vector. -/
noncomputable def totalProb {n : ℕ} (ψ : State n) : ℝ :=
  ∑ v : Fin n → Bool, probs ψ v

/-- A 2×2 complex matrix, indexed by `Bool` (row, column);
`U r c = ⟨r|U|c⟩`. -/
abbrev Mat2 := Bool → Bool → ℂ

/-- Matrix of the Pauli-X gate. -/
noncomputable def Xmat : Mat2 := fun r c => if r = c then 0 else 1

/-- Matrix of the Pauli-Y gate. -/
noncomputable def Ymat : Mat2 := fun r c =>
  match r, c with
  | false, false => 0
  | false, true  => -Complex.I
  | true,  false => Complex.I
  | true,  true  => 0

/-- Matrix of the Pauli-Z gate. -/
noncomputable def Zmat : Mat2 := fun r c =>
  match r, c with
  | false, false => 1
  | true,  true  => -1
  | _,     _     => 0

/-- Matrix of the Hadamard gate. -/
noncomputable def Hmat : Mat2 := fun r c =>
  (↑(Real.sqrt 2))⁻¹ * (if r && c then -1 else 1)

/-- Matrix of the RY rotation gate,
`[[cos(θ/2), -sin(θ/2)], [sin(θ/2), cos(θ/2)]]`. -/
noncomputable def RYmat (θ : ℝ) : Mat2 := fun r c =>
  match r, c with
  | false, false => (Real.cos (θ / 2) : ℂ)
  | false, true  => -(Real.sin (θ / 2) : ℂ)
  | true,  false => (Real.sin (θ / 2) : ℂ)
  | true,  true  => (Real.cos (θ / 2) : ℂ)

/-- Modelled from the spec: application of a single-qubit gate matrix to
the state vector "via tensor contraction on the entry's wire indices"
(all other wires act as identity). -/
noncomputable def applyOne {n : ℕ} (U : Mat2) (w : Fin n) (ψ : State n) : State n :=
  fun v =>
    U (v w) false * ψ (Function.update v w false) +
    U (v w) true * ψ (Function.update v w true)

/-- Modelled from the spec: the controlled-Z gate, which flips the sign
of the amplitude exactly on basis states where both wires are 1. -/
noncomputable def applyCZ {n : ℕ} (a b : Fin n) (ψ : State n) : State n :=
  fun v => (if v a && v b then -1 else 1) * ψ v

/-- Modelled from the spec: the CNOT gate, which permutes basis states by
xoring the control wire's value into the target wire. -/
noncomputable def applyCNOT {n : ℕ} (c t : Fin n) (ψ : State n) : State n :=
  fun v => ψ (Function.update v t (xor (v c) (v t)))

/-- The gate library required by the notebook's exercises
(spec §4.1): Pauli-X/Y/Z, Hadamard, RY(angle), CZ, CNOT.  Wires are
plain naturals, range-checked by the device at application time. -/
inductive Gate where
  | PauliX (w : ℕ)
  | PauliY (w : ℕ)
  | PauliZ (w : ℕ)
  | Hadamard (w : ℕ)
  | RY (θ : ℝ) (w : ℕ)
  | CZ (a b : ℕ)
  | CNOT (c t : ℕ)

/-- A circuit is the ordered gate sequence recorded by a trace
(spec §3 "Circuit"). -/
abbrev Circuit := List Gate

/-- The wire indices referenced by a gate. -/
def Gate.wires : Gate → List ℕ
  | .PauliX w => [w]
  | .PauliY w => [w]
  | .PauliZ w => [w]
  | .Hadamard w => [w]
  | .RY _ w => [w]
  | .CZ a b => [a, b]
  | .CNOT c t => [c, t]

/-- A well-formed gate: wire indices are pairwise distinct (spec §4.1:
constructing a gate with bad arity fails with `InvalidGate`, so a
two-wire gate never acts twice on one wire). -/
def Gate.wf : Gate → Prop
  | .CZ a b => a ≠ b
  | .CNOT c t => c ≠ t
  | _ => True

instance : DecidablePred Gate.wf := by
  intro g; cases g <;> simp only [Gate.wf] <;> infer_instance

/-- The error kinds of the spec's §7. -/
inductive Err where
  | InvalidGate
  | WireOutOfRangeError
  | MismatchedLengthError
  | NotHermitianError
deriving DecidableEq

/-- Modelled from the spec: the Simulator applies one gate to the state
vector, failing with `WireOutOfRangeError` when the gate "references a
wire ≥ declared wire count". -/
noncomputable def applyGate (n : ℕ) : Gate → State n → Except Err (State n)
  | .PauliX w, ψ =>
      if h : w < n then .ok (applyOne Xmat ⟨w, h⟩ ψ) else .error .WireOutOfRangeError
  | .PauliY w, ψ =>
      if h : w < n then .ok (applyOne Ymat ⟨w, h⟩ ψ) else .error .WireOutOfRangeError
  | .PauliZ w, ψ =>
      if h : w < n then .ok (applyOne Zmat ⟨w, h⟩ ψ) else .error .WireOutOfRangeError
  | .Hadamard w, ψ =>
      if h : w < n then .ok (applyOne Hmat ⟨w, h⟩ ψ) else .error .WireOutOfRangeError
  | .RY θ w, ψ =>
      if h : w < n then .ok (applyOne (RYmat θ) ⟨w, h⟩ ψ) else .error .WireOutOfRangeError
  | .CZ a b, ψ =>
      if h : a < n ∧ b < n then .ok (applyCZ ⟨a, h.1⟩ ⟨b, h.2⟩ ψ)
      else .error .WireOutOfRangeError
  | .CNOT c t, ψ =>
      if h : c < n ∧ t < n then .ok (applyCNOT ⟨c, h.1⟩ ⟨t, h.2⟩ ψ)
      else .error .WireOutOfRangeError

/-- Modelled from the spec: the Simulator applies each circuit entry "in
recorded order" starting from the given state. -/
noncomputable def runFrom (n : ℕ) (c : Circuit) (ψ : State n) : Except Err (State n) :=
  c.foldlM (fun φ g => applyGate n g φ) ψ

/-- Modelled from the spec: a full circuit execution from the all-zero
initial state. -/
noncomputable def runCircuit (n : ℕ) (c : Circuit) : Except Err (State n) :=
  runFrom n c (initState n)

/-! ### Splitting a basis state at one wire

To reason about a single-qubit gate we split a basis state into the value
it assigns to the gate's wire and its restriction to the other wires. -/

/-- Reassemble a basis state from its value `b` on wire `w` and its
values `g` on the remaining wires. -/
def merge {n : ℕ} (w : Fin n) (b : Bool) (g : {j : Fin n // j ≠ w} → Bool) :
    Fin n → Bool :=
  (Equiv.funSplitAt w Bool).symm (b, g)

lemma merge_self {n : ℕ} (w : Fin n) (b : Bool) (g : {j : Fin n // j ≠ w} → Bool) :
    merge w b g w = b := by
  simp [merge, Equiv.funSplitAt, Equiv.piSplitAt]

lemma merge_ne {n : ℕ} (w : Fin n) (b : Bool) (g : {j : Fin n // j ≠ w} → Bool)
    {j : Fin n} (h : j ≠ w) : merge w b g j = g ⟨j, h⟩ := by
  simp [merge, Equiv.funSplitAt, Equiv.piSplitAt, h]

lemma update_merge {n : ℕ} (w : Fin n) (b b' : Bool)
    (g : {j : Fin n // j ≠ w} → Bool) :
    Function.update (merge w b g) w b' = merge w b' g := by
  funext j
  by_cases h : j = w
  · subst h; simp [merge_self]
  · rw [Function.update_noteq h, merge_ne _ _ _ h, merge_ne _ _ _ h]

/-- A sum over all basis states splits into a sum over the restrictions to
the wires other than `w`, each contributing its two extensions. -/
lemma sum_split {n : ℕ} (w : Fin n) (f : (Fin n → Bool) → ℝ) :
    ∑ v : Fin n → Bool, f v =
      ∑ g : {j : Fin n // j ≠ w} → Bool,
        (f (merge w false g) + f (merge w true g)) := by
  rw [← Equiv.sum_comp (Equiv.funSplitAt w Bool).symm f, Fintype.sum_prod_type,
    Fintype.sum_bool, ← Finset.sum_add_distrib]
  exact Finset.sum_congr rfl fun g _ => add_comm _ _

lemma applyOne_merge {n : ℕ} (U : Mat2) (w : Fin n) (ψ : State n) (b : Bool)
    (g : {j : Fin n // j ≠ w} → Bool) :
    applyOne U w ψ (merge w b g) =
      U b false * ψ (merge w false g) + U b true * ψ (merge w true g) := by
  rw [applyOne, merge_self, update_merge, update_merge]

/-! ### Norm preservation gate by gate -/

/-- A 2×2 matrix preserves the summed squared modulus of the pair of
amplitudes it mixes. -/
def Norm2Preserving (U : Mat2) : Prop :=
  ∀ a b : ℂ,
    Complex.normSq (U false false * a + U false true * b) +
      Complex.normSq (U true false * a + U true true * b) =
    Complex.normSq a + Complex.normSq b

lemma applyOne_totalProb {n : ℕ} {U : Mat2} (hU : Norm2Preserving U)
    (w : Fin n) (ψ : State n) : totalProb (applyOne U w ψ) = totalProb ψ := by
  rw [totalProb, totalProb]
  rw [sum_split w (fun v => probs (applyOne U w ψ) v), sum_split w (fun v => probs ψ v)]
  refine Finset.sum_congr rfl fun g _ => ?_
  simp only [probs, applyOne_merge]
  exact hU _ _

lemma Xmat_norm2 : Norm2Preserving Xmat := by
  intro a b
  have e1 : Xmat false false * a + Xmat false true * b = b := by
    simp [Xmat]
  have e2 : Xmat true false * a + Xmat true true * b = a := by
    simp [Xmat]
  rw [e1, e2, add_comm]

lemma Ymat_norm2 : Norm2Preserving Ymat := by
  intro a b
  have e1 : Ymat false false * a + Ymat false true * b = -(Complex.I * b) := by
    simp [Ymat]
  have e2 : Ymat true false * a + Ymat true true * b = Complex.I * a := by
    simp [Ymat]
  rw [e1, e2, Complex.normSq_neg, Complex.normSq_mul, Complex.normSq_mul,
    Complex.normSq_I, one_mul, one_mul, add_comm]

lemma Zmat_norm2 : Norm2Preserving Zmat := by
  intro a b
  have e1 : Zmat false false * a + Zmat false true * b = a := by
    simp [Zmat]
  have e2 : Zmat true false * a + Zmat true true * b = -b := by
    simp [Zmat]
  rw [e1, e2, Complex.normSq_neg]

lemma Hmat_entry_ff : Hmat false false = ((Real.sqrt 2 : ℝ) : ℂ)⁻¹ := by
  simp [Hmat]

lemma Hmat_entry_ft : Hmat false true = ((Real.sqrt 2 : ℝ) : ℂ)⁻¹ := by
  simp [Hmat]

lemma Hmat_entry_tf : Hmat true false = ((Real.sqrt 2 : ℝ) : ℂ)⁻¹ := by
  simp [Hmat]

lemma Hmat_entry_tt : Hmat true true = -((Real.sqrt 2 : ℝ) : ℂ)⁻¹ := by
  simp [Hmat]

lemma Hmat_norm2 : Norm2Preserving Hmat := by
  intro a b
  have hc : Complex.normSq ((Real.sqrt 2 : ℝ) : ℂ)⁻¹ = 1 / 2 := by
    rw [map_inv₀, Complex.normSq_ofReal, Real.mul_self_sqrt (by norm_num)]
    norm_num
  have e1 : Hmat false false * a + Hmat false true * b =
      ((Real.sqrt 2 : ℝ) : ℂ)⁻¹ * (a + b) := by
    rw [Hmat_entry_ff, Hmat_entry_ft]; ring
  have e2 : Hmat true false * a + Hmat true true * b =
      ((Real.sqrt 2 : ℝ) : ℂ)⁻¹ * (a - b) := by
    rw [Hmat_entry_tf, Hmat_entry_tt]; ring
  rw [e1, e2, Complex.normSq_mul, Complex.normSq_mul, hc, Complex.normSq_add,
    Complex.normSq_sub]
  ring

lemma RYmat_norm2 (θ : ℝ) : Norm2Preserving (RYmat θ) := by
  intro a b
  have hcs : Real.cos (θ / 2) ^ 2 + Real.sin (θ / 2) ^ 2 = 1 :=
    Real.cos_sq_add_sin_sq _
  have e1 : RYmat θ false false * a + RYmat θ false true * b =
      (Real.cos (θ / 2) : ℂ) * a - (Real.sin (θ / 2) : ℂ) * b := by
    show (Real.cos (θ / 2) : ℂ) * a + -(Real.sin (θ / 2) : ℂ) * b = _
    ring
  have e2 : RYmat θ true false * a + RYmat θ true true * b =
      (Real.sin (θ / 2) : ℂ) * a + (Real.cos (θ / 2) : ℂ) * b := rfl
  rw [e1, e2, Complex.normSq_sub, Complex.normSq_add, Complex.normSq_mul,
    Complex.normSq_mul, Complex.normSq_mul, Complex.normSq_mul,
    Complex.normSq_ofReal, Complex.normSq_ofReal]
  have hconj : ((Real.cos (θ / 2) : ℂ) * a *
      (starRingEnd ℂ) ((Real.sin (θ / 2) : ℂ) * b)).re =
      Real.cos (θ / 2) * Real.sin (θ / 2) * (a * (starRingEnd ℂ) b).re := by
    rw [map_mul, Complex.conj_ofReal]
    rw [show (Real.cos (θ / 2) : ℂ) * a * ((Real.sin (θ / 2) : ℂ) *
      (starRingEnd ℂ) b) = ((Real.cos (θ / 2) * Real.sin (θ / 2) : ℝ) : ℂ) *
      (a * (starRingEnd ℂ) b) by push_cast; ring]
    rw [Complex.re_ofReal_mul]
  have hconj2 : ((Real.sin (θ / 2) : ℂ) * a *
      (starRingEnd ℂ) ((Real.cos (θ / 2) : ℂ) * b)).re =
      Real.cos (θ / 2) * Real.sin (θ / 2) * (a * (starRingEnd ℂ) b).re := by
    rw [map_mul, Complex.conj_ofReal]
    rw [show (Real.sin (θ / 2) : ℂ) * a * ((Real.cos (θ / 2) : ℂ) *
      (starRingEnd ℂ) b) = ((Real.cos (θ / 2) * Real.sin (θ / 2) : ℝ) : ℂ) *
      (a * (starRingEnd ℂ) b) by push_cast; ring]
    rw [Complex.re_ofReal_mul]
  rw [hconj, hconj2]
  linear_combination (Complex.normSq a + Complex.normSq b) * hcs

lemma applyCZ_totalProb {n : ℕ} (a b : Fin n) (ψ : State n) :
    totalProb (applyCZ a b ψ) = totalProb ψ := by
  refine Finset.sum_congr rfl fun v _ => ?_
  simp only [probs, applyCZ]
  by_cases h : v a && v b
  · simp [h]
  · simp [h]

lemma cnot_involutive {n : ℕ} (c t : Fin n) (hct : c ≠ t) :
    Function.Involutive
      (fun v : Fin n → Bool => Function.update v t (xor (v c) (v t))) := by
  intro v
  funext j
  dsimp only
  by_cases hj : j = t
  · subst hj
    rw [Function.update_same, Function.update_noteq hct, Function.update_same,
      ← Bool.xor_assoc, Bool.xor_self, Bool.false_xor]
  · rw [Function.update_noteq hj, Function.update_noteq hj]

lemma applyCNOT_totalProb {n : ℕ} (c t : Fin n) (hct : c ≠ t) (ψ : State n) :
    totalProb (applyCNOT c t ψ) = totalProb ψ := by
  rw [totalProb, totalProb]
  exact Equiv.sum_comp ((cnot_involutive c t hct).toPerm _) (fun v => probs ψ v)

/-! ### C4: the empty circuit leaves the probability vector at the
all-zero indicator -/

theorem runCircuit_nil (n : ℕ) : runCircuit n [] = .ok (initState n) := rfl

/-- C4: "For every Circuit containing no gates, on a simulator with any
declared wire count, the full probability vector returned by the
Simulator has the value 1.0 at the all-zero basis state and 0 at every
other basis state." -/
theorem empty_circuit_probs (n : ℕ) :
    ∃ ψ : State n, runCircuit n [] = .ok ψ ∧
      ∀ v : Fin n → Bool,
        probs ψ v = if (∀ i, v i = false) then 1 else 0 := by
  refine ⟨initState n, rfl, fun v => ?_⟩
  by_cases h : ∀ i, v i = false
  · simp [probs, initState, h]
  · simp [probs, initState, h]

/-! ### C5: valid circuits keep the probability vector normalized -/

lemma totalProb_initState (n : ℕ) : totalProb (initState n) = 1 := by
  rw [totalProb]
  have h : ∀ v : Fin n → Bool,
      probs (initState n) v = if v = (fun _ => false) then 1 else 0 := by
    intro v
    by_cases hv : ∀ i, v i = false
    · have hv' : v = fun _ => false := funext hv
      simp [probs, initState, hv, hv']
    · have hv' : v ≠ fun _ => false := fun he => hv fun i => congrFun he i
      simp [probs, initState, hv, hv']
  rw [Finset.sum_congr rfl fun v _ => h v]
  simp

lemma applyGate_ok_totalProb (n : ℕ) (g : Gate) (φ : State n)
    (hw : ∀ w ∈ g.wires, w < n) (hwf : g.wf) :
    ∃ φ', applyGate n g φ = .ok φ' ∧ totalProb φ' = totalProb φ := by
  cases g with
  | PauliX w =>
      have h : w < n := hw w (by simp [Gate.wires])
      exact ⟨_, by simp only [applyGate]; rw [dif_pos h],
        applyOne_totalProb Xmat_norm2 _ _⟩
  | PauliY w =>
      have h : w < n := hw w (by simp [Gate.wires])
      exact ⟨_, by simp only [applyGate]; rw [dif_pos h],
        applyOne_totalProb Ymat_norm2 _ _⟩
  | PauliZ w =>
      have h : w < n := hw w (by simp [Gate.wires])
      exact ⟨_, by simp only [applyGate]; rw [dif_pos h],
        applyOne_totalProb Zmat_norm2 _ _⟩
  | Hadamard w =>
      have h : w < n := hw w (by simp [Gate.wires])
      exact ⟨_, by simp only [applyGate]; rw [dif_pos h],
        applyOne_totalProb Hmat_norm2 _ _⟩
  | RY θ w =>
      have h : w < n := hw w (by simp [Gate.wires])
      exact ⟨_, by simp only [applyGate]; rw [dif_pos h],
        applyOne_totalProb (RYmat_norm2 θ) _ _⟩
  | CZ a b =>
      have h : a < n ∧ b < n :=
        ⟨hw a (by simp [Gate.wires]), hw b (by simp [Gate.wires])⟩
      exact ⟨_, by simp only [applyGate]; rw [dif_pos h],
        applyCZ_totalProb _ _ _⟩
  | CNOT c t =>
      have h : c < n ∧ t < n :=
        ⟨hw c (by simp [Gate.wires]), hw t (by simp [Gate.wires])⟩
      have hct : c ≠ t := hwf
      exact ⟨_, by simp only [applyGate]; rw [dif_pos h],
        applyCNOT_totalProb _ _ (Fin.ne_of_val_ne hct) _⟩

lemma runFrom_ok_totalProb (n : ℕ) :
    ∀ c : Circuit, (∀ g ∈ c, (∀ w ∈ g.wires, w < n) ∧ g.wf) →
      ∀ ψ : State n, ∃ φ, runFrom n c ψ = .ok φ ∧ totalProb φ = totalProb ψ := by
  intro c
  induction c with
  | nil => exact fun _ ψ => ⟨ψ, rfl, rfl⟩
  | cons g c ih =>
      intro h ψ
      obtain ⟨φ₁, h1, e1⟩ := applyGate_ok_totalProb n g ψ
        (h g (List.mem_cons_self g c)).1 (h g (List.mem_cons_self g c)).2
      obtain ⟨φ₂, h2, e2⟩ := ih (fun g' hg' => h g' (List.mem_cons_of_mem _ hg')) φ₁
      refine ⟨φ₂, ?_, e2.trans e1⟩
      rw [runFrom] at h2 ⊢
      rw [List.foldlM_cons, h1]
      simpa using h2

/-- C5: "For every valid Circuit (all gate wire indices below the
declared wire count), after the Simulator applies all gates in recorded
order, the entries of the full probability vector sum to 1 within
numerical tolerance; this normalization is preserved by every gate
application."  Validity of a circuit additionally requires each gate to
be well-formed (`Gate.wf`: distinct wires for two-wire gates), since by
spec §4.1 a malformed gate cannot be constructed at all
(`InvalidGate`).  The normalization is exact, hence within any
tolerance. -/
theorem valid_circuit_total_probability (n : ℕ) (c : Circuit)
    (h : ∀ g ∈ c, (∀ w ∈ g.wires, w < n) ∧ g.wf) :
    (∀ (g : Gate) (φ : State n), (∀ w ∈ g.wires, w < n) → g.wf →
        ∃ φ', applyGate n g φ = .ok φ' ∧ totalProb φ' = totalProb φ) ∧
      ∃ ψ, runCircuit n c = .ok ψ ∧ totalProb ψ = 1 := by
  refine ⟨fun g φ hw hwf => applyGate_ok_totalProb n g φ hw hwf, ?_⟩
  obtain ⟨ψ, h1, h2⟩ := runFrom_ok_totalProb n c h (initState n)
  exact ⟨ψ, h1, h2.trans (totalProb_initState n)⟩

/-- Witness for C5: normalization is preserved by applying `Hadamard 0`
to the initial 2-wire state, and the concrete valid circuit
`[X 0, CZ 0 1]` runs to a state of total probability 1. -/
theorem valid_circuit_total_probability_witness :
    (∃ φ', applyGate 2 (Gate.Hadamard 0) (initState 2) = .ok φ' ∧
        totalProb φ' = totalProb (initState 2)) ∧
      ∃ ψ, runCircuit 2 [Gate.PauliX 0, Gate.CZ 0 1] = .ok ψ ∧
        totalProb ψ = 1 := by
  have h := valid_circuit_total_probability 2 [Gate.PauliX 0, Gate.CZ 0 1] (by
    intro g hg
    simp only [List.mem_cons, List.not_mem_nil, or_false] at hg
    rcases hg with rfl | rfl
    · refine ⟨?_, trivial⟩
      intro w hw
      simp only [Gate.wires, List.mem_singleton] at hw
      omega
    · refine ⟨?_, ?_⟩
      · intro w hw
        simp only [Gate.wires, List.mem_cons, List.not_mem_nil,
          List.mem_singleton, or_false] at hw
        rcases hw with rfl | rfl <;> omega
      · show (0 : ℕ) ≠ 1
        omega)
  refine ⟨h.1 (Gate.Hadamard 0) (initState 2) ?_ trivial, h.2⟩
  intro w hw
  simp only [Gate.wires, List.mem_singleton] at hw
  omega

/-! ### C7: wire-range checking -/

/-- C7: "For every circuit execution on a Device declared with wire
count W, applying a gate whose wire indices are all below W never
raises, while applying any gate that references a wire index ≥ W fails
with WireOutOfRangeError." -/
theorem gate_wire_range_check (n : ℕ) (g : Gate) (ψ : State n) :
    ((∀ w ∈ g.wires, w < n) → ∃ φ, applyGate n g ψ = .ok φ) ∧
      ((∃ w ∈ g.wires, n ≤ w) →
        applyGate n g ψ = .error .WireOutOfRangeError) := by
  cases g with
  | PauliX w =>
      constructor
      · intro hw
        have h : w < n := hw w (by simp [Gate.wires])
        exact ⟨_, by simp only [applyGate]; rw [dif_pos h]⟩
      · rintro ⟨w', hw', hle⟩
        simp only [Gate.wires, List.mem_singleton] at hw'
        subst hw'
        simp only [applyGate]
        rw [dif_neg (by omega)]
  | PauliY w =>
      constructor
      · intro hw
        have h : w < n := hw w (by simp [Gate.wires])
        exact ⟨_, by simp only [applyGate]; rw [dif_pos h]⟩
      · rintro ⟨w', hw', hle⟩
        simp only [Gate.wires, List.mem_singleton] at hw'
        subst hw'
        simp only [applyGate]
        rw [dif_neg (by omega)]
  | PauliZ w =>
      constructor
      · intro hw
        have h : w < n := hw w (by simp [Gate.wires])
        exact ⟨_, by simp only [applyGate]; rw [dif_pos h]⟩
      · rintro ⟨w', hw', hle⟩
        simp only [Gate.wires, List.mem_singleton] at hw'
        subst hw'
        simp only [applyGate]
        rw [dif_neg (by omega)]
  | Hadamard w =>
      constructor
      · intro hw
        have h : w < n := hw w (by simp [Gate.wires])
        exact ⟨_, by simp only [applyGate]; rw [dif_pos h]⟩
      · rintro ⟨w', hw', hle⟩
        simp only [Gate.wires, List.mem_singleton] at hw'
        subst hw'
        simp only [applyGate]
        rw [dif_neg (by omega)]
  | RY θ w =>
      constructor
      · intro hw
        have h : w < n := hw w (by simp [Gate.wires])
        exact ⟨_, by simp only [applyGate]; rw [dif_pos h]⟩
      · rintro ⟨w', hw', hle⟩
        simp only [Gate.wires, List.mem_singleton] at hw'
        subst hw'
        simp only [applyGate]
        rw [dif_neg (by omega)]
  | CZ a b =>
      constructor
      · intro hw
        have h : a < n ∧ b < n :=
          ⟨hw a (by simp [Gate.wires]), hw b (by simp [Gate.wires])⟩
        exact ⟨_, by simp only [applyGate]; rw [dif_pos h]⟩
      · rintro ⟨w', hw', hle⟩
        simp only [Gate.wires, List.mem_cons, List.mem_singleton,
          List.not_mem_nil, or_false] at hw'
        simp only [applyGate]
        rcases hw' with rfl | rfl <;> rw [dif_neg (by omega)]
  | CNOT c t =>
      constructor
      · intro hw
        have h : c < n ∧ t < n :=
          ⟨hw c (by simp [Gate.wires]), hw t (by simp [Gate.wires])⟩
        exact ⟨_, by simp only [applyGate]; rw [dif_pos h]⟩
      · rintro ⟨w', hw', hle⟩
        simp only [Gate.wires, List.mem_cons, List.mem_singleton,
          List.not_mem_nil, or_false] at hw'
        simp only [applyGate]
        rcases hw' with rfl | rfl <;> rw [dif_neg (by omega)]

/-- Witness for C7 on the 2-wire device of the notebook: `X 0` is in
range and succeeds, `CNOT 0 5` references wire 5 ≥ 2 and fails. -/
theorem gate_wire_range_check_witness :
    (∃ φ, applyGate 2 (Gate.PauliX 0) (initState 2) = .ok φ) ∧
      applyGate 2 (Gate.CNOT 0 5) (initState 2) = .error .WireOutOfRangeError :=
  ⟨(gate_wire_range_check 2 (Gate.PauliX 0) (initState 2)).1
      (by intro w hw; fin_cases hw; omega),
   (gate_wire_range_check 2 (Gate.CNOT 0 5) (initState 2)).2
      ⟨5, by simp [Gate.wires], by omega⟩⟩

/-! ### The notebook's parameterized circuit `circ_fn` -/

/-- The gate sequence traced from the notebook's quantum function
`circ_fn` (and identically `obs_circ_fn` / `decorated_qfun`): for each
entry `t` of the parameter vector `theta`, the loop body applies
`qml.PauliX(0)`, `qml.RY(t, 1)`, `qml.CZ([0,1])`. -/
def circ_fn (theta : List ℝ) : Circuit :=
  theta.flatMap fun t => [Gate.PauliX 0, Gate.RY t 1, Gate.CZ 0 1]

/-! ### C2: the circuit `[X(0), RY(0,1), CZ(0,1)]` sends `|00⟩` to `|10⟩` -/

/-- C2: "For the 2-qubit circuit consisting of X on wire 0, RY(θ) on
wire 1, then CZ on wires (0,1) — i.e. one iteration of the loop body of
circ_fn — executed with θ = 0 from the all-zero initial state, the
resulting probability of basis state |10⟩ equals exactly 1." -/
theorem xry0cz_prob_10 :
    ∃ ψ : State 2, runCircuit 2 (circ_fn [(0 : ℝ)]) = .ok ψ ∧
      probs ψ ![true, false] = 1 := by
  refine ⟨applyCZ 0 1 (applyOne (RYmat 0) 1 (applyOne Xmat 0 (initState 2))),
    rfl, ?_⟩
  simp only [probs, applyCZ, applyOne, initState, RYmat, Xmat, Hmat,
    Real.cos_zero, Real.sin_zero, Complex.ofReal_one, Complex.ofReal_zero,
    Function.update_apply, Fin.forall_fin_two, Matrix.cons_val_zero,
    Matrix.cons_val_one, Matrix.head_cons]
  norm_num

/-! ### C3: the GHZ construction on 4 wires -/

/-- Modelled from the spec: the GHZ construction of the notebook's final
exercise (the function `ghz`, left as a "Live demo" placeholder in the
source): "Hadamard on wire 0, then CNOT(0,k) for k=1..3" on `W = 4`
wires. -/
def ghz : Circuit :=
  [Gate.Hadamard 0, Gate.CNOT 0 1, Gate.CNOT 0 2, Gate.CNOT 0 3]

lemma forall_fin4 (p : Fin 4 → Prop) : (∀ i, p i) ↔ p 0 ∧ p 1 ∧ p 2 ∧ p 3 := by
  constructor
  · exact fun h => ⟨h 0, h 1, h 2, h 3⟩
  · rintro ⟨h0, h1, h2, h3⟩ i
    fin_cases i <;> assumption

/-- C3: "The GHZ construction on 4 wires (Hadamard on wire 0 followed by
CNOT(0,k) for k = 1, 2, 3), applied to the all-zero initial state,
produces a state with exactly two nonzero amplitudes, at basis states
|0000⟩ and |1111⟩, each with probability 0.5." -/
theorem ghz_two_peaks :
    ∃ ψ : State 4, runCircuit 4 ghz = .ok ψ ∧
      ∀ v : Fin 4 → Bool,
        probs ψ v =
          if v = (fun _ => false) ∨ v = (fun _ => true) then 1 / 2 else 0 := by
  refine ⟨applyCNOT 0 3 (applyCNOT 0 2 (applyCNOT 0 1
    (applyOne Hmat 0 (initState 4)))), rfl, ?_⟩
  intro v
  have hsq : Complex.normSq ((Real.sqrt 2 : ℝ) : ℂ)⁻¹ = 1 / 2 := by
    rw [map_inv₀, Complex.normSq_ofReal, Real.mul_self_sqrt (by norm_num)]
    norm_num
  cases hv0 : v 0 <;> cases hv1 : v 1 <;> cases hv2 : v 2 <;> cases hv3 : v 3 <;>
    simp [probs, applyCNOT, applyOne, initState, Hmat, Function.update_apply,
      forall_fin4, funext_iff, hv0, hv1, hv2, hv3, hsq]

/-! ### C10: qubit-0 parity of `circ_fn` -/

/-- Test for the gate `PauliX 0`. -/
def isPauliX0 : Gate → Bool
  | .PauliX 0 => true
  | _ => false

lemma circ_fn_countX (theta : List ℝ) :
    (circ_fn theta).countP isPauliX0 = theta.length := by
  induction theta with
  | nil => rfl
  | cons t rest ih =>
      simp only [circ_fn] at ih ⊢
      rw [List.flatMap_cons, List.countP_append, ih,
        show ([Gate.PauliX 0, Gate.RY t 1, Gate.CZ 0 1]).countP isPauliX0 = 1
          from rfl,
        List.length_cons]
      omega

/-- A 2-wire state is supported on wire-0 value `b` when every basis
state with the other wire-0 value has amplitude zero. -/
def SupportedOn0 (b : Bool) (ψ : State 2) : Prop :=
  ∀ v : Fin 2 → Bool, v 0 ≠ b → ψ v = 0

lemma supportedOn0_initState : SupportedOn0 false (initState 2) := by
  intro v hv
  have h : ¬ ∀ i, v i = false := fun h => hv (h 0)
  simp [initState, h]

lemma supportedOn0_applyX (b : Bool) (ψ : State 2) (h : SupportedOn0 b ψ) :
    SupportedOn0 (!b) (applyOne Xmat 0 ψ) := by
  intro v hv
  have hv0 : v 0 = b := by cases b <;> cases hb : v 0 <;> simp_all
  rw [applyOne, hv0]
  cases b
  · rw [show Xmat false false = 0 from rfl, show Xmat false true = 1 from rfl,
      h (Function.update v 0 true) (by simp)]
    ring
  · rw [show Xmat true false = 1 from rfl, show Xmat true true = 0 from rfl,
      h (Function.update v 0 false) (by simp)]
    ring

lemma supportedOn0_applyOne1 (U : Mat2) (b : Bool) (ψ : State 2)
    (h : SupportedOn0 b ψ) : SupportedOn0 b (applyOne U 1 ψ) := by
  intro v hv
  rw [applyOne,
    h (Function.update v 1 false) (by simpa [Function.update_apply] using hv),
    h (Function.update v 1 true) (by simpa [Function.update_apply] using hv)]
  ring

lemma supportedOn0_applyCZ (b : Bool) (ψ : State 2) (h : SupportedOn0 b ψ) :
    SupportedOn0 b (applyCZ 0 1 ψ) := by
  intro v hv
  rw [applyCZ, h v hv]
  ring

lemma circ_fn_runFrom_supported (theta : List ℝ) :
    ∀ b : Bool, ∀ ψ : State 2, SupportedOn0 b ψ →
      ∃ φ, runFrom 2 (circ_fn theta) ψ = .ok φ ∧
        SupportedOn0 (if Even theta.length then b else !b) φ := by
  induction theta with
  | nil =>
      intro b ψ h
      exact ⟨ψ, rfl, by simpa using h⟩
  | cons t rest ih =>
      intro b ψ h
      obtain ⟨φ, hrun, hsup⟩ := ih (!b)
        (applyCZ 0 1 (applyOne (RYmat t) 1 (applyOne Xmat 0 ψ)))
        (supportedOn0_applyCZ _ _
          (supportedOn0_applyOne1 _ _ _ (supportedOn0_applyX b ψ h)))
      refine ⟨φ, hrun, ?_⟩
      by_cases he : Even rest.length
      · have hno : ¬ Even (rest.length + 1) := by simp [Nat.even_add_one, he]
        simpa [he, hno] using hsup
      · have hyes : Even (rest.length + 1) := by simp [Nat.even_add_one, he]
        simpa [he, hyes, Bool.not_not] using hsup

/-- C10: "For every parameter vector theta, the circuit traced from
circ_fn applies PauliX to wire 0 exactly len(theta) times while all
other gates (RY on wire 1, CZ, both diagonal-preserving for wire 0's
populations) never transfer probability between the two values of qubit
0; hence the full probability vector assigns probability 0 to every
basis state whose qubit-0 value differs from len(theta) mod 2." -/
theorem circ_fn_qubit0_parity (theta : List ℝ) (v : Fin 2 → Bool)
    (hv : v 0 ≠ (if Even theta.length then false else true)) :
    (circ_fn theta).countP isPauliX0 = theta.length ∧
      ∃ ψ, runCircuit 2 (circ_fn theta) = .ok ψ ∧ probs ψ v = 0 := by
  refine ⟨circ_fn_countX theta, ?_⟩
  obtain ⟨ψ, hrun, hsup⟩ := circ_fn_runFrom_supported theta false (initState 2)
    supportedOn0_initState
  refine ⟨ψ, hrun, ?_⟩
  have hz : ψ v = 0 := hsup v (by simpa using hv)
  simp [probs, hz]

/-- Witness for C10 at `theta = [1]` and the basis state `|00⟩`, whose
qubit-0 value `0` differs from `len(theta) mod 2 = 1`. -/
theorem circ_fn_qubit0_parity_witness :
    ((![false, false] : Fin 2 → Bool) 0 ≠
        (if Even ([(1 : ℝ)]).length then false else true)) ∧
      ((circ_fn [(1 : ℝ)]).countP isPauliX0 = ([(1 : ℝ)]).length ∧
        ∃ ψ, runCircuit 2 (circ_fn [(1 : ℝ)]) = .ok ψ ∧
          probs ψ ![false, false] = 0) :=
  ⟨by decide, circ_fn_qubit0_parity [(1 : ℝ)] ![false, false] (by decide)⟩

/-! ### Observables

The notebook implements `O = 1.7·X⁽⁰⁾⊗Y⁽¹⁾ − 0.2·Z⁽⁰⁾⊗Z⁽¹⁾` twice: as a
Pauli decomposition (`cs`, `os`, `O_ham`) and as an explicit 4×4 matrix
(`O_mat`, `O_her`). -/

/-- Single-qubit Pauli operator tags. -/
inductive Pauli where
  | X
  | Y
  | Z

/-- Matrix of a Pauli tag. -/
noncomputable def Pauli.mat : Pauli → Mat2
  | .X => Xmat
  | .Y => Ymat
  | .Z => Zmat

/-- A Pauli string on an `n`-wire register: a list of (operator, wire)
pairs, identity on every unlisted wire (the `@` tensor products of the
notebook). -/
abbrev PauliString (n : ℕ) := List (Pauli × Fin n)

/-- Modelled from the spec: apply a Pauli string to a state, each factor
acting on its own wire. -/
noncomputable def applyPauliString {n : ℕ} (P : PauliString n) (ψ : State n) :
    State n :=
  P.foldr (fun pw φ => applyOne pw.1.mat pw.2 φ) ψ

/-- The inner product `⟨φ|ψ⟩`. -/
noncomputable def braket {n : ℕ} (φ ψ : State n) : ℂ :=
  ∑ v : Fin n → Bool, (starRingEnd ℂ) (φ v) * ψ v

/-- The notebook's coefficient list `cs = [1.7, -0.2]`. -/
def cs : List ℝ := [1.7, -0.2]

/-- The notebook's Pauli strings
`os = [PauliX(0)@PauliY(1), PauliZ(0)@PauliZ(1)]`. -/
def os : List (PauliString 2) :=
  [[(Pauli.X, 0), (Pauli.Y, 1)], [(Pauli.Z, 0), (Pauli.Z, 1)]]

/-- The notebook's `O_ham = qml.Hamiltonian(cs, os)`, kept as the paired
list of (coefficient, Pauli string) terms. -/
def O_ham : List (ℝ × PauliString 2) := cs.zip os

/-- Modelled from the spec: the expectation of a Pauli-decomposition
observable, "Σ cᵢ·⟨ψ|Pᵢ|ψ⟩ computed term-by-term". -/
noncomputable def expvalHam {n : ℕ} (H : List (ℝ × PauliString n))
    (ψ : State n) : ℂ :=
  (H.map fun term => (term.1 : ℂ) * braket ψ (applyPauliString term.2 ψ)).sum

/-- The notebook's literal matrix `O_mat` (a Python list of rows). -/
noncomputable def O_mat : List (List ℂ) :=
  [[((0.2 : ℝ) : ℂ), 0, 0, -((1.7 : ℝ) : ℂ) * Complex.I],
   [0, -((0.2 : ℝ) : ℂ), ((1.7 : ℝ) : ℂ) * Complex.I, 0],
   [0, -((1.7 : ℝ) : ℂ) * Complex.I, -((0.2 : ℝ) : ℂ), 0],
   [((1.7 : ℝ) : ℂ) * Complex.I, 0, 0, ((0.2 : ℝ) : ℂ)]]

/-- Entry lookup in a matrix given as a list of rows (0 outside). -/
def entry (M : List (List ℂ)) (i j : ℕ) : ℂ := (M.getD i []).getD j 0

/-- Index of a 2-wire basis state in the 4-dimensional tensor basis,
wire 0 most significant (PennyLane's ordering). -/
def basisIndex2 (v : Fin 2 → Bool) : ℕ :=
  (if v 0 then 2 else 0) + (if v 1 then 1 else 0)

/-- Modelled from the spec: the expectation `⟨ψ|M|ψ⟩` of a
Hermitian-matrix observable on wires (0,1) of the 2-wire register,
"computed via direct matrix-vector product". -/
noncomputable def expvalMat (M : List (List ℂ)) (ψ : State 2) : ℂ :=
  ∑ v : Fin 2 → Bool, ∑ u : Fin 2 → Bool,
    (starRingEnd ℂ) (ψ v) * entry M (basisIndex2 v) (basisIndex2 u) * ψ u

/-! ### C1: the two forms of the observable disagree

The markdown defines `O = 1.7·X⊗Y − 0.2·Z⊗Z`, and `O_ham` implements
exactly that; but the literal `O_mat` has diagonal `(0.2, −0.2, −0.2,
0.2)`, which is `+0.2·Z⊗Z`, not `−0.2·Z⊗Z`.  On the state `|00⟩` the
Pauli form gives `−0.2` while the matrix form gives `+0.2`. -/

lemma braket_initState (n : ℕ) (φ : State n) :
    braket (initState n) φ = φ (fun _ => false) := by
  rw [braket]
  rw [Finset.sum_eq_single (fun _ => false)]
  · simp [initState]
  · intro v _ hv
    have h : ¬ ∀ i, v i = false := fun h => hv (funext h)
    simp [initState, h]
  · intro h
    exact absurd (Finset.mem_univ _) h

lemma expvalMat_initState (M : List (List ℂ)) :
    expvalMat M (initState 2) = entry M 0 0 := by
  rw [expvalMat]
  rw [Finset.sum_eq_single (fun _ => false)]
  · rw [Finset.sum_eq_single (fun _ => false)]
    · simp [initState, basisIndex2]
    · intro u _ hu
      have h : ¬ ∀ i, u i = false := fun h => hu (funext h)
      simp [initState, h]
    · intro h
      exact absurd (Finset.mem_univ _) h
  · intro v _ hv
    have h : ¬ ∀ i, v i = false := fun h => hv (funext h)
    simp [initState, h]
  · intro h
    exact absurd (Finset.mem_univ _) h

/-- C1 fails: "the expectation value computed from its
Pauli-decomposition form (O_ham) and the expectation value computed from
its explicit 4×4 Hermitian-matrix form (O_mat) agree within tolerance
1e-9 on every 2-qubit state" is violated at the all-zero state: the
Pauli form evaluates to −0.2 and the matrix form to +0.2, a gap of 0.4 >
1e-9.  (The markdown formula is `−0.2·Z⊗Z`; the matrix's diagonal
implements `+0.2·Z⊗Z`, so `O_mat` contradicts the documented `O`.) -/
theorem O_ham_O_mat_disagree_at_00 :
    expvalHam O_ham (initState 2) = (-0.2 : ℂ) ∧
      expvalMat O_mat (initState 2) = (0.2 : ℂ) ∧
      ¬ Complex.abs (expvalHam O_ham (initState 2) -
          expvalMat O_mat (initState 2)) ≤ 1e-9 := by
  have h1 : expvalHam O_ham (initState 2) = (-0.2 : ℂ) := by
    rw [show O_ham = [((1.7 : ℝ), [(Pauli.X, (0 : Fin 2)), (Pauli.Y, 1)]),
      ((-0.2 : ℝ), [(Pauli.Z, 0), (Pauli.Z, 1)])] from rfl]
    rw [expvalHam, List.map_cons, List.map_cons, List.map_nil, List.sum_cons,
      List.sum_cons, List.sum_nil, braket_initState, braket_initState]
    simp only [applyPauliString, List.foldr, Pauli.mat]
    simp [applyOne, Xmat, Ymat, Zmat, initState, Function.update_apply,
      Fin.forall_fin_two]
    norm_num
  have h2 : expvalMat O_mat (initState 2) = (0.2 : ℂ) := by
    rw [expvalMat_initState]
    norm_num [entry, O_mat]
  refine ⟨h1, h2, ?_⟩
  rw [h1, h2]
  rw [show ((-0.2 : ℂ) - 0.2) = (((-0.4 : ℝ)) : ℂ) by push_cast; norm_num]
  rw [Complex.abs_ofReal]
  norm_num [abs_of_nonpos]

/-! ### C6, C9: the Hermitian-matrix observable constructor -/

/-- An observable in explicit Hermitian-matrix form together with the
wires it acts on (the result of `qml.Hermitian(matrix, wires)`). -/
structure HermObs where
  mat : List (List ℂ)
  obsWires : List ℕ

/-- A square table of size `d` whose (i,j) entry is the complex
conjugate of its (j,i) entry. -/
def IsHermitianTable (M : List (List ℂ)) (d : ℕ) : Prop :=
  M.length = d ∧ (∀ r ∈ M, r.length = d) ∧
    ∀ i < d, ∀ j < d, entry M i j = (starRingEnd ℂ) (entry M j i)

/-- The matrix induced by a list-of-rows table. -/
noncomputable def tableMatrix (M : List (List ℂ)) (d : ℕ) :
    Matrix (Fin d) (Fin d) ℂ :=
  Matrix.of fun i j => entry M i.val j.val

open Classical in
/-- Modelled from the spec: `hermitian_observable(matrix, wires)`
"requires a square matrix of size 2^len(wires) equal to its conjugate
transpose within a numerical tolerance; fails with NotHermitianError
otherwise" (the library constructor `qml.Hermitian` is not part of the
repository; the tolerance is modelled as exact equality). -/
noncomputable def hermitian_observable (M : List (List ℂ)) (ws : List ℕ) :
    Except Err HermObs :=
  if IsHermitianTable M (2 ^ ws.length) then .ok ⟨M, ws⟩
  else .error .NotHermitianError

lemma isHermitianTable_iff (M : List (List ℂ)) (d : ℕ) :
    IsHermitianTable M d ↔
      M.length = d ∧ (∀ r ∈ M, r.length = d) ∧
        (tableMatrix M d).conjTranspose = tableMatrix M d := by
  refine and_congr_right fun _ => and_congr_right fun _ => ?_
  rw [← Matrix.ext_iff]
  constructor
  · intro h i j
    rw [Matrix.conjTranspose_apply, tableMatrix, Matrix.of_apply,
      Matrix.of_apply]
    exact (h i.val i.isLt j.val j.isLt).symm
  · intro h i hi j hj
    have h2 := h ⟨j, hj⟩ ⟨i, hi⟩
    rw [Matrix.conjTranspose_apply, tableMatrix, Matrix.of_apply,
      Matrix.of_apply] at h2
    rw [← h2, starRingEnd_apply, star_star]

/-- C6: "hermitian_observable(matrix, wires) succeeds and returns an
Observable if and only if matrix is a square matrix of size
2^len(wires) that equals its own conjugate transpose within a numerical
tolerance; for every input violating this, it fails with
NotHermitianError and constructs no Observable." -/
theorem hermitian_observable_spec (M : List (List ℂ)) (ws : List ℕ) :
    ((∃ ob : HermObs, hermitian_observable M ws = .ok ob ∧
        ob.mat = M ∧ ob.obsWires = ws) ↔
      M.length = 2 ^ ws.length ∧ (∀ r ∈ M, r.length = 2 ^ ws.length) ∧
        (tableMatrix M (2 ^ ws.length)).conjTranspose =
          tableMatrix M (2 ^ ws.length)) ∧
      (¬ (M.length = 2 ^ ws.length ∧ (∀ r ∈ M, r.length = 2 ^ ws.length) ∧
          (tableMatrix M (2 ^ ws.length)).conjTranspose =
            tableMatrix M (2 ^ ws.length)) →
        hermitian_observable M ws = .error .NotHermitianError) := by
  constructor
  · rw [← isHermitianTable_iff]
    constructor
    · rintro ⟨ob, hob, -, -⟩
      by_contra h
      rw [hermitian_observable, if_neg h] at hob
      cases hob
    · intro h
      exact ⟨⟨M, ws⟩, by rw [hermitian_observable, if_pos h], rfl, rfl⟩
  · rw [← isHermitianTable_iff]
    intro h
    rw [hermitian_observable, if_neg h]

/-- Witness for C6: the 1×1 table `[[i]]` is rejected with
`NotHermitianError`, while the Hermitian table `[[1]]` is accepted. -/
theorem hermitian_observable_spec_witness :
    hermitian_observable [[Complex.I]] [] = .error .NotHermitianError ∧
      ∃ ob : HermObs, hermitian_observable [[(1 : ℂ)]] [] = .ok ob ∧
        ob.mat = [[(1 : ℂ)]] ∧ ob.obsWires = [] := by
  constructor
  · refine (hermitian_observable_spec [[Complex.I]] []).2 ?_
    rintro ⟨-, -, h3⟩
    have h4 := congrFun (congrFun h3 ⟨0, by norm_num⟩) ⟨0, by norm_num⟩
    rw [Matrix.conjTranspose_apply, tableMatrix] at h4
    simp [entry, Complex.ext_iff] at h4
    norm_num at h4
  · refine (hermitian_observable_spec [[(1 : ℂ)]] []).1.mpr ⟨rfl, ?_, ?_⟩
    · intro r hr
      simp only [List.mem_singleton] at hr
      subst hr
      rfl
    · ext i j
      fin_cases i
      fin_cases j
      rw [Matrix.conjTranspose_apply, tableMatrix]
      simp [entry]

/-- C9: the literal `O_mat` equals its own conjugate transpose, so
`O_her = qml.Hermitian(O_mat, wires=(0,1))` succeeds and the
not-Hermitian error branch is unreachable for this input. -/
theorem O_mat_hermitian :
    (tableMatrix O_mat 4).conjTranspose = tableMatrix O_mat 4 ∧
      hermitian_observable O_mat [0, 1] = .ok ⟨O_mat, [0, 1]⟩ := by
  have htab : IsHermitianTable O_mat 4 := by
    refine ⟨rfl, ?_, ?_⟩
    · intro r hr
      simp only [O_mat, List.mem_cons, List.not_mem_nil, or_false] at hr
      rcases hr with rfl | rfl | rfl | rfl <;> rfl
    · intro i hi j hj
      interval_cases i <;> interval_cases j <;>
        simp [entry, O_mat, map_mul, map_neg, Complex.conj_ofReal,
          Complex.conj_I, mul_comm]
  constructor
  · exact ((isHermitianTable_iff O_mat 4).mp htab).2.2
  · have htab2 : IsHermitianTable O_mat (2 ^ ([0, 1] : List ℕ).length) := htab
    rw [hermitian_observable, if_pos htab2]

/-! ### C8: the bound execution node is pure -/

/-- Device configuration (spec §3): declared wire count and optional
shot count; `none` means exact simulation. -/
structure Device where
  devWires : ℕ
  shots : Option ℕ

/-- The notebook's device:
`dev = qml.device("default.qubit", wires=2, shots=None)`. -/
def dev : Device := ⟨2, none⟩

/-- Modelled from the spec: the Execution Node obtained by binding the
notebook's `obs_circ_fn` (same loop body as `circ_fn`, returning
`qml.expval(O_ham)`) to a device.  Each call re-traces the circuit with
the given parameters, simulates it on the all-zero state, and returns
the exact expectation value of `O_ham`; the device binding is returned
unchanged, the node being "stateless across calls except for the fixed
binding". -/
noncomputable def obs_qnode (d : Device) (theta : List ℝ) :
    Except Err ℂ × Device :=
  (Except.map (fun ψ => expvalHam O_ham ψ) (runCircuit 2 (circ_fn theta)), d)

/-- C8: "The callable returned by binding a trace function to a Device
with shots = None is pure: for every pair of runs with equal parameter
values, it returns equal numeric results" — stated as a two-run
property: the second call starts from the device state left by the
first call and returns the same result, and a call leaves the device
unchanged. -/
theorem obs_qnode_deterministic (theta₁ theta₂ : List ℝ)
    (hshots : dev.shots = none) (heq : theta₁ = theta₂) :
    (obs_qnode (obs_qnode dev theta₁).2 theta₂).1 = (obs_qnode dev theta₁).1 ∧
      (obs_qnode dev theta₁).2 = dev := by
  subst heq
  exact ⟨rfl, rfl⟩

/-- Witness for C8: two runs at the parameter vector `[0]`. -/
theorem obs_qnode_deterministic_witness :
    dev.shots = none ∧
      ((obs_qnode (obs_qnode dev [(0 : ℝ)]).2 [(0 : ℝ)]).1 =
          (obs_qnode dev [(0 : ℝ)]).1 ∧
        (obs_qnode dev [(0 : ℝ)]).2 = dev) :=
  ⟨rfl, obs_qnode_deterministic [(0 : ℝ)] [(0 : ℝ)] rfl rfl⟩

end QCHandsOn
